import Mathlib

/-!
Shallow embedding of `packages/bundler-plugin-core/src/debug-id-upload.ts`.

JS strings are modelled as `List Char`.  Platform effects (fs reads and
writes, `glob`, `JSON.parse`, the upload client, temp-dir creation and
removal) are modelled by explicit outcome parameters threaded through the
control flow, which itself is transcribed from the source.  The batch
orchestrator is modelled as a function producing a linear trace of events;
concurrent per-file effects are linearized in candidate order, and the one
un-awaited operation of the source (the `void fs.promises.rm` cleanup in the
`finally` block) is recorded as an initiation event before the settle event
and a completion event after it, matching Node's semantics in which an
un-awaited fs operation cannot complete before the enclosing async function's
promise settles.

One caveat on the linearization: on a run where some unit's promise rejects,
the source's `Promise.all` rejects early while sibling units' writes may
still be pending, and the source then gives no ordering between those pending
writes and the removal initiated in the `finally` block.  The trace's
placement of all unit events before the settle/cleanup tail is, on such runs,
only a linearization convention; accordingly no theorem below draws an
ordering conclusion between unit writes and the tail except on runs where
every unit's promise fulfills (where the `await Promise.all` of the source
really does order all unit writes before the `finally` block).
-/

namespace DebugIdUpload

/-! ### Character and literal helpers -/

def isHexDigit (c : Char) : Bool :=
  ('0' ≤ c && c ≤ '9') || ('a' ≤ c && c ≤ 'f') || ('A' ≤ c && c ≤ 'F')

/-- Match a literal character sequence at the front of `s`; on success return
the remainder. -/
def dropLit : List Char → List Char → Option (List Char)
  | [], s => some s
  | _ :: _, [] => none
  | l :: ls, c :: cs => if c = l then dropLit ls cs else none

/-- Consume exactly `n` hex digits, returning them and the remainder. -/
def takeHex : Nat → List Char → Option (List Char × List Char)
  | 0, s => some ([], s)
  | _ + 1, [] => none
  | n + 1, c :: cs =>
    if isHexDigit c then (takeHex n cs).map (fun g => (c :: g.1, g.2)) else none

def expectDash : List Char → Option (List Char)
  | [] => none
  | c :: cs => if c = '-' then some cs else none

/-! ### Identifier Extractor (`determineDebugIdFromBundleSource`, lines 209-219)

The source matches
`/sentry-dbid-([0-9a-fA-F]{8}\b-[0-9a-fA-F]{4}\b-[0-9a-fA-F]{4}\b-[0-9a-fA-F]{4}\b-[0-9a-fA-F]{12})/`
against the bundle text and returns capture group 1.  Each `\b` sits between
a hex digit (a word character) and `-` (not a word character), so it always
holds and needs no separate model.  The groups have fixed widths, so the
regex engine's behaviour is: try each start position from the left, and at
each position match the literal `sentry-dbid-` followed by the five
fixed-width hex groups separated by dashes. -/

/-- Attempt the marker match anchored at the head of `s`, returning capture
group 1 (the 36-character uuid, verbatim). -/
def matchMarkerHere (s : List Char) : Option (List Char) :=
  (dropLit ("sentry-dbid-".toList) s).bind fun r0 =>
  (takeHex 8 r0).bind fun p1 =>
  (expectDash p1.2).bind fun r1 =>
  (takeHex 4 r1).bind fun p2 =>
  (expectDash p2.2).bind fun r2 =>
  (takeHex 4 r2).bind fun p3 =>
  (expectDash p3.2).bind fun r3 =>
  (takeHex 4 r3).bind fun p4 =>
  (expectDash p4.2).bind fun r4 =>
  (takeHex 12 r4).map fun p5 =>
  p1.1 ++ '-' :: p2.1 ++ '-' :: p3.1 ++ '-' :: p4.1 ++ '-' :: p5.1

/-- Model of `determineDebugIdFromBundleSource`: leftmost match of the marker
regex, or `none` (the source's `undefined`). -/
def determineDebugIdFromBundleSource : List Char → Option (List Char)
  | [] => none
  | c :: cs =>
    match matchMarkerHere (c :: cs) with
    | some u => some u
    | none => determineDebugIdFromBundleSource cs

/-- The marker string for a given uuid. -/
def markerStr (u : List Char) : List Char := ("sentry-dbid-".toList) ++ u

def uuidGroupB (n : Nat) (g : List Char) : Bool :=
  g.length = n && g.all isHexDigit

/-- A well-formed uuid as the regex accepts it: five hex groups of widths
8-4-4-4-12 separated by dashes (case-insensitive, case preserved). -/
def wellFormedUuid (u : List Char) : Prop :=
  ∃ g1 g2 g3 g4 g5,
    u = g1 ++ '-' :: g2 ++ '-' :: g3 ++ '-' :: g4 ++ '-' :: g5 ∧
    uuidGroupB 8 g1 = true ∧ uuidGroupB 4 g2 = true ∧ uuidGroupB 4 g3 = true ∧
    uuidGroupB 4 g4 = true ∧ uuidGroupB 12 g5 = true

/-! ### Model of Node's `path.posix` primitives

The source uses `path.normalize`, `path.join`, `path.dirname`,
`path.isAbsolute`, `path.relative` and `path.resolve` (the latter implicitly
through `relative`).  These are platform builtins (not repository code); they
are modelled here segment-wise following their documented POSIX semantics:
`normalize` collapses `//`, resolves `.` and `..` (keeping leading `..` for
relative paths), preserves a trailing slash, and returns `.` for the empty
path; `resolve` makes a path absolute against the current working directory
and fully normalizes it; `relative` resolves both arguments and returns the
path from the first to the second. -/

def splitSlash : List Char → List (List Char)
  | [] => [[]]
  | c :: cs =>
    if c = '/' then [] :: splitSlash cs
    else
      match splitSlash cs with
      | [] => [[c]]
      | seg :: segs => (c :: seg) :: segs

def joinSegs : List (List Char) → List Char
  | [] => []
  | [s] => s
  | s :: rest => s ++ '/' :: joinSegs rest

/-- One step of segment normalization (Node's `normalizeString`): drop empty
and `.` segments; on `..` pop the previous segment unless there is none or it
is itself `..`, in which case keep the `..` only when above-root segments are
allowed (i.e. for relative paths). -/
def normStep (allowAboveRoot : Bool) (acc : List (List Char)) (seg : List Char) :
    List (List Char) :=
  if seg = [] ∨ seg = ['.'] then acc
  else if seg = ['.', '.'] then
    if acc = [] ∨ acc.getLast? = some ['.', '.'] then
      if allowAboveRoot then acc ++ [['.', '.']] else acc
    else acc.dropLast
  else acc ++ [seg]

def normalizeSegs (allowAboveRoot : Bool) (segs : List (List Char)) :
    List (List Char) :=
  segs.foldl (normStep allowAboveRoot) []

def pathIsAbsolute (p : List Char) : Bool :=
  match p with
  | [] => false
  | c :: _ => c == '/'

def pathNormalize (p : List Char) : List Char :=
  if p = [] then ['.']
  else
    let core := joinSegs (normalizeSegs (!pathIsAbsolute p) (splitSlash p))
    if core = [] then
      if pathIsAbsolute p then ['/']
      else if p.getLast? = some '/' then ['.', '/'] else ['.']
    else
      let core2 := if p.getLast? = some '/' then core ++ ['/'] else core
      if pathIsAbsolute p then '/' :: core2 else core2

/-- `path.posix.join(a, b)`: join the non-empty parts with `/` and normalize;
joining nothing yields `.`. -/
def pathJoin (a b : List Char) : List Char :=
  if a = [] ∧ b = [] then ['.']
  else if a = [] then pathNormalize b
  else if b = [] then pathNormalize a
  else pathNormalize (a ++ '/' :: b)

/-- `path.posix.dirname`, transliterated from Node's index scan: skip trailing
slashes, then the last segment; the separator found there (at index ≥ 1) ends
the dirname.  If none is found the result is `/` for absolute paths and `.`
otherwise; a separator at index 1 of an absolute path yields `//`. -/
def pathDirname (p : List Char) : List Char :=
  if p = [] then ['.']
  else
    let r := p.reverse
    let rest := (r.dropWhile (fun c => c == '/')).dropWhile (fun c => c != '/')
    match rest with
    | [] => if pathIsAbsolute p then ['/'] else ['.']
    | _ :: tail =>
      if tail = [] then
        if pathIsAbsolute p then ['/'] else ['.']
      else if pathIsAbsolute p ∧ tail.length = 1 then ['/', '/']
      else tail.reverse

/-- `path.posix.resolve(p)` with the process working directory `cwd` (assumed
absolute): make `p` absolute against `cwd` and normalize without above-root
segments. -/
def pathResolve (cwd p : List Char) : List Char :=
  let full := if pathIsAbsolute p then p else cwd ++ '/' :: p
  '/' :: joinSegs (normalizeSegs false (splitSlash full))

def segsOfAbs (p : List Char) : List (List Char) :=
  (splitSlash p).filter (fun s => s ≠ [])

def dropCommon : List (List Char) → List (List Char) → List (List Char) × List (List Char)
  | a :: as, b :: bs => if a = b then dropCommon as bs else (a :: as, b :: bs)
  | as, bs => (as, bs)

/-- `path.posix.relative(f, t)` with working directory `cwd`: resolve both
paths, drop the common segment prefix, and climb out of the remaining `f`
segments before descending into the remaining `t` segments. -/
def pathRelative (cwd f t : List Char) : List Char :=
  if f = t then []
  else
    let fr := pathResolve cwd f
    let tr := pathResolve cwd t
    if fr = tr then []
    else
      let p := dropCommon (segsOfAbs fr) (segsOfAbs tr)
      joinSegs (p.1.map (fun _ => ['.', '.']) ++ p.2)

/-! ### Default rewrite hook (`defaultRewriteSourcesHook`, lines 303-310)

`PROTOCOL_REGEX` is `/^[a-zA-Z][a-zA-Z0-9+\-.]*:\/\//`.  The scheme character
class contains neither `:` nor `/`, so the regex engine's greedy star with
backtracking is equivalent to: take the maximal run of scheme characters
after the initial letter and then require `://`.  `source.replace(regex, "")`
removes that anchored match, leaving the remainder. -/

def isSchemeChar (c : Char) : Bool :=
  c.isAlpha || c.isDigit || c = '+' || c = '-' || c = '.'

/-- The literal `://` following the scheme's character run. -/
def sepSplit : List Char → Option (List Char)
  | a :: b :: c :: tail =>
    if a = ':' ∧ b = '/' ∧ c = '/' then some tail else none
  | _ => none

/-- Model of matching `PROTOCOL_REGEX` against `s`: on success return what
follows the matched `scheme://` prefix.  The greedy star over the scheme
class is modelled by `dropWhile`; since `:` and `/` are not in the class, no
shorter (backtracked) run can be followed by `://`, so this is exactly the
regex's match. -/
def protocolMatch (s : List Char) : Option (List Char) :=
  match s with
  | [] => none
  | c :: r =>
    if c.isAlpha then sepSplit (r.dropWhile isSchemeChar) else none

/-- Model of `defaultRewriteSourcesHook` with working directory `cwd`: strip a
matched `scheme://` prefix, otherwise return the normalized path relative to
the working directory. -/
def defaultRewriteSourcesHook (cwd source : List Char) : List Char :=
  match protocolMatch source with
  | some rest => rest
  | none => pathRelative cwd cwd (pathNormalize source)

/-! ### Source-map documents

`JSON.parse` is a platform builtin; per the subsystem's data model a parsed
source-map document is a key/value structure (the source casts it to
`Record<string, unknown>`), modelled as an ordered association list whose
values are JSON values.  Property assignment on such an object updates an
existing key in place or appends a new one, preserving `JSON.stringify`
order. -/

inductive Json where
  | null
  | bool (b : Bool)
  | num (n : Int)
  | str (s : List Char)
  | arr (elems : List Json)
  | obj (fields : List (List Char × Json))

abbrev Doc := List (List Char × Json)

def lookupKey : Doc → List Char → Option Json
  | [], _ => none
  | (k, v) :: rest, key => if k = key then some v else lookupKey rest key

def setKey : Doc → List Char → Json → Doc
  | [], key, v => [(key, v)]
  | (k, w) :: rest, key, v =>
    if k = key then (key, v) :: rest else (k, w) :: setKey rest key v

/-! ### Log events and severities -/

inductive Severity where
  | debug
  | warn
  | error
deriving DecidableEq, Repr

inductive LogEv where
  | debugFallbackToArtifacts
  | debugEmptyAssets
  | warnNoSources
  | errorReadBundle (path : List Char)
  | debugNoDebugId (path : List Char)
  | debugNoSourceMap (path : List Char)
  | errorReadMap (path : List Char)
  | errorParseMap (path : List Char)
  | errorWriteMap (path : List Char)
  | debugDeleteAsset (path : List Char)
deriving DecidableEq, Repr

def LogEv.severity : LogEv → Severity
  | .debugFallbackToArtifacts => .debug
  | .debugEmptyAssets => .debug
  | .warnNoSources => .warn
  | .errorReadBundle _ => .error
  | .debugNoDebugId _ => .debug
  | .debugNoSourceMap _ => .debug
  | .errorReadMap _ => .error
  | .errorParseMap _ => .error
  | .errorWriteMap _ => .error
  | .debugDeleteAsset _ => .debug

/-! ### Trace events of the batch -/

inductive Ev where
  | mkdirTmp (dir : List Char)
  | log (l : LogEv)
  | stagedWrite (path : List Char)
  | upload (dir : List Char)
  | rmFile (path : List Char) (ok : Bool)
  | captureException
  | handleRecoverableError
  | cleanupInitiated (dir : List Char)
  | settle
  | cleanupCompleted (dir : List Char)
deriving DecidableEq, Repr

def Ev.isStagedWrite : Ev → Bool
  | .stagedWrite _ => true
  | _ => false

/-- Events a preparation unit can emit (logs and staged writes only). -/
def Ev.isUnitEv : Ev → Bool
  | .log _ => true
  | .stagedWrite _ => true
  | _ => false

/-- The three events of the settle/cleanup tail of a run. -/
def Ev.isLifecycle : Ev → Bool
  | .cleanupInitiated _ => true
  | .settle => true
  | .cleanupCompleted _ => true
  | _ => false

/-! ### Source-Map Locator (`determineSourceMapPathFromBundle`, lines 226-256)

The regex `/^\/\/# sourceMappingURL=(.*)$/` carries no `m` flag, so `^`
anchors at the start of the whole string, `$` at its very end, and `.` does
not match line terminators: it matches only when the entire string is a
single `//# sourceMappingURL=<value>` line.  The adjacent-file probe
(`fs.access` on `bundlePath + ".map"`) is modelled by the Boolean outcome
`adjacentMapExists`. -/

def sourceMappingUrlValue (s : List Char) : Option (List Char) :=
  match dropLit ("//# sourceMappingURL=".toList) s with
  | some rest =>
    if rest.all (fun c => c != '\n' && c != '\r') then some rest else none
  | none => none

def determineSourceMapPathFromBundle (bundlePath bundleSource : List Char)
    (adjacentMapExists : Bool) : Option (List Char) :=
  match sourceMappingUrlValue bundleSource with
  | some url =>
    let n := pathNormalize url
    if pathIsAbsolute n then some n
    else some (pathJoin (pathDirname bundlePath) n)
  | none =>
    if adjacentMapExists then some (bundlePath ++ (".map".toList)) else none

/-! ### Source-Map Transformer (`prepareSourceMapForDebugIdUpload`, lines 261-301)

`readOutcome` models the composed outcome of `fs.readFile` and `JSON.parse`:
`none` = read threw; `some none` = parse threw; `some (some d)` = parsed
document `d`.  `writeOk` models the `fs.writeFile` outcome.

Line 290 of the source reads
`map["sources"].map((source: string) => rewriteSourcesHook(source, map));`
— the array produced by `.map` is never assigned back, so the hook's results
are discarded and the written document keeps the original `sources` entries.
The discarded results (for string entries) are recorded in
`discardedRewrites`. -/

structure MapPrepResult where
  written : Option (List Char × Doc)
  discardedRewrites : List (List Char)
  logs : List LogEv

def prepareSourceMapForDebugIdUpload (sourceMapPath targetPath debugId : List Char)
    (hook : List Char → Doc → List Char)
    (readOutcome : Option (Option Doc)) (writeOk : Bool) : MapPrepResult :=
  match readOutcome with
  | none => ⟨none, [], [.errorReadMap sourceMapPath]⟩
  | some none => ⟨none, [], [.errorParseMap sourceMapPath]⟩
  | some (some m0) =>
    let m1 := setKey (setKey m0 ("debug_id".toList) (.str debugId))
                ("debugId".toList) (.str debugId)
    let discarded :=
      match lookupKey m1 ("sources".toList) with
      | some (.arr xs) =>
        xs.filterMap (fun j =>
          match j with
          | .str s => some (hook s m1)
          | _ => none)
      | _ => []
    if writeOk then ⟨some (targetPath, m1), discarded, []⟩
    else ⟨none, discarded, [.errorWriteMap sourceMapPath]⟩

/-! ### Bundle Preparer (`prepareBundleForDebugIdUpload`, lines 149-201) -/

def digitChar (n : Nat) : Char :=
  if n = 0 then '0' else if n = 1 then '1' else if n = 2 then '2'
  else if n = 3 then '3' else if n = 4 then '4' else if n = 5 then '5'
  else if n = 6 then '6' else if n = 7 then '7' else if n = 8 then '8'
  else '9'

/-- Structural helper for decimal rendering (the fuel always suffices because
dividing by ten strictly decreases a number that is at least ten). -/
def natCharsAux : Nat → Nat → List Char
  | 0, _ => []
  | fuel + 1, n =>
    if n < 10 then [digitChar n]
    else natCharsAux fuel (n / 10) ++ [digitChar (n % 10)]

/-- Decimal rendering of a natural number, as JS template interpolation
`${chunkIndex}` produces for a non-negative integer. -/
def natChars (n : Nat) : List Char := natCharsAux (n + 1) n

/-- Per-bundle filesystem outcomes for one preparation unit. -/
structure BundleEnv where
  content : Option (List Char)
  bundleWriteOk : Bool
  adjacentMapExists : Bool
  mapRead : Option (Option Doc)
  mapWriteOk : Bool

structure PrepResult where
  events : List Ev
  fulfilled : Bool

/-- Line 177: `bundleContent += "\n//# debugId=" + debugId` (the mutated text
is what the locator is later called with). -/
def stampedBundle (content debugId : List Char) : List Char :=
  content ++ ("\n//# debugId=".toList) ++ debugId

/-- Model of `prepareBundleForDebugIdUpload`.  A read failure or missing
debug ID logs and returns early (the unit's promise fulfills).  Otherwise the
bundle-text write and the map pipeline run concurrently; their effects are
linearized bundle-write first.  The map pipeline catches all of its own
failures, so the returned promise (`Promise.all` of the two) is rejected
exactly when the bundle-text write rejects. -/
def prepareBundleForDebugIdUpload (bundleFilePath uploadFolder : List Char)
    (chunkIndex : Nat) (hook : List Char → Doc → List Char) (env : BundleEnv) :
    PrepResult :=
  match env.content with
  | none => ⟨[.log (.errorReadBundle bundleFilePath)], true⟩
  | some bundleContent =>
    match determineDebugIdFromBundleSource bundleContent with
    | none => ⟨[.log (.debugNoDebugId bundleFilePath)], true⟩
    | some debugId =>
      let uniqueUploadName := debugId ++ '-' :: natChars chunkIndex
      let stamped := stampedBundle bundleContent debugId
      let bundleEvents :=
        if env.bundleWriteOk then
          [Ev.stagedWrite (pathJoin uploadFolder (uniqueUploadName ++ (".js".toList)))]
        else []
      let mapEvents :=
        match determineSourceMapPathFromBundle bundleFilePath stamped
            env.adjacentMapExists with
        | none => [Ev.log (.debugNoSourceMap bundleFilePath)]
        | some sourceMapPath =>
          let r := prepareSourceMapForDebugIdUpload sourceMapPath
            (pathJoin uploadFolder (uniqueUploadName ++ (".js.map".toList)))
            debugId hook env.mapRead env.mapWriteOk
          r.logs.map Ev.log ++
            (match r.written with
             | some pm => [Ev.stagedWrite pm.1]
             | none => [])
      ⟨bundleEvents ++ mapEvents, env.bundleWriteOk⟩

/-! ### Batch Orchestrator (`createDebugIdUploadFunction`, lines 37-147) -/

/-- The `assets` / `deleteFilesAfterUpload` options have TS type
`string | string[]`. -/
inductive GlobPattern where
  | single (s : List Char)
  | multi (l : List (List Char))
deriving DecidableEq, Repr

/-- JS truthiness of an optional `string | string[]` value: `undefined` and
the empty string are falsy; every array (including `[]`) is truthy. -/
def truthyPattern : Option GlobPattern → Bool
  | none => false
  | some (.single s) => !s.isEmpty
  | some (.multi _) => true

structure UploadOptions where
  assets : Option GlobPattern
  deleteFilesAfterUpload : Option GlobPattern

/-- Filesystem / network outcomes for one batch run.  `globAssets` and
`globDelete` are `none` when the corresponding `glob` call rejects. -/
structure OrchEnv where
  mkdtempOk : Bool
  tmpDir : List Char
  globAssets : Option (List (List Char))
  bundleEnv : List Char → BundleEnv
  uploadOk : Bool
  globDelete : Option (List (List Char))
  rmFileOk : List Char → Bool

/-- Lines 78-83: keep only `.js` / `.mjs` / `.cjs` files. -/
def hasScriptExt (p : List Char) : Bool :=
  (".js".toList).isSuffixOf p || (".mjs".toList).isSuffixOf p ||
    (".cjs".toList).isSuffixOf p

def candidateFiles (files : List (List Char)) : List (List Char) :=
  files.filter hasScriptExt

/-- Lines 94-104: one preparation unit per candidate, with its array index as
`chunkIndex`. -/
def prepareAll (tmpDir : List Char) (hook : List Char → Doc → List Char)
    (benv : List Char → BundleEnv) (candidates : List (List Char)) :
    List PrepResult :=
  candidates.enum.map (fun p =>
    prepareBundleForDebugIdUpload p.2 tmpDir p.1 hook (benv p.2))

/-- Lines 62-119: glob the assets (falling back to the build artifacts),
branch on the explicitly-empty-assets opt-out, the empty candidate set, or
run all units and upload.  The Boolean is `true` when this phase threw. -/
def mainWork (opts : UploadOptions) (artifacts : List (List Char))
    (hook : List Char → Doc → List Char) (env : OrchEnv) : List Ev × Bool :=
  match env.globAssets with
  | none => ([], true)
  | some files =>
    if opts.assets = some (.multi []) then ([Ev.log .debugEmptyAssets], false)
    else if candidateFiles files = [] then ([Ev.log .warnNoSources], false)
    else
      let units := prepareAll env.tmpDir hook env.bundleEnv (candidateFiles files)
      let unitEvs := (units.map PrepResult.events).flatten
      if units.all PrepResult.fulfilled then
        if env.uploadOk then (unitEvs ++ [Ev.upload env.tmpDir], false)
        else (unitEvs, true)
      else (unitEvs, true)

/-- Lines 121-136: when `deleteFilesAfterUpload` is truthy, glob it and remove
every match (logging each at debug level).  The Boolean is `true` when this
phase threw. -/
def deletionPhase (opts : UploadOptions) (env : OrchEnv) : List Ev × Bool :=
  if truthyPattern opts.deleteFilesAfterUpload then
    match env.globDelete with
    | none => ([], true)
    | some files =>
      (files.map (fun p => Ev.log (.debugDeleteAsset p)) ++
        files.map (fun p => Ev.rmFile p (env.rmFileOk p)),
       files.any (fun p => !env.rmFileOk p))
  else ([], false)

/-- The try-block body after the temp dir exists: main work, then (only if it
did not throw) the deletion phase. -/
def runBody (opts : UploadOptions) (artifacts : List (List Char))
    (hook : List Char → Doc → List Char) (env : OrchEnv) : List Ev × Bool :=
  let w := mainWork opts artifacts hook env
  if w.2 then (w.1, true)
  else
    let d := deletionPhase opts env
    (w.1 ++ d.1, d.2)

/-- Line 66: the fallback-to-build-artifacts debug log, emitted when `assets`
is falsy. -/
def fallbackLog (opts : UploadOptions) : List Ev :=
  if truthyPattern opts.assets then [] else [Ev.log .debugFallbackToArtifacts]

def catchEvents (threw : Bool) : List Ev :=
  if threw then [Ev.captureException, Ev.handleRecoverableError] else []

/-- Model of the function returned by `createDebugIdUploadFunction`: the full
event trace of one batch run.  If `mkdtemp` itself throws, `folderToCleanUp`
was never set and the `finally` block removes nothing.  Otherwise the
`finally` block initiates (but does not await) the removal of the staging
directory, so the removal completes only after the returned promise settles.

The trace lists all unit events before the catch/finally tail.  On a run
where every unit's promise fulfills this is the source's real order (the
units are awaited via `Promise.all` before anything later runs); on a run
where some unit rejects, `Promise.all` rejects early and pending sibling
writes race the un-awaited removal, so this placement is only a
linearization convention — theorems must not (and below do not) rely on the
relative order of unit events and the tail on such runs. -/
def createDebugIdUploadFunction (opts : UploadOptions)
    (artifacts : List (List Char)) (hook : List Char → Doc → List Char)
    (env : OrchEnv) : List Ev :=
  if env.mkdtempOk then
    Ev.mkdirTmp env.tmpDir :: fallbackLog opts ++
      (runBody opts artifacts hook env).1 ++
      catchEvents (runBody opts artifacts hook env).2 ++
      [Ev.cleanupInitiated env.tmpDir, Ev.settle, Ev.cleanupCompleted env.tmpDir]
  else [Ev.captureException, Ev.handleRecoverableError, Ev.settle]

/-! ### Trace observations -/

/-- Whether a `cleanupInitiated dir` event occurs strictly before the first
`settle` event. -/
def initiatedBeforeSettle (dir : List Char) : List Ev → Bool
  | [] => false
  | Ev.settle :: _ => false
  | Ev.cleanupInitiated d :: rest =>
    if d = dir then true else initiatedBeforeSettle dir rest
  | _ :: rest => initiatedBeforeSettle dir rest

/-- Whether a `cleanupCompleted dir` event occurs strictly before the first
`settle` event (i.e. whether the staging directory is already gone when the
returned promise settles). -/
def completedBeforeSettle (dir : List Char) : List Ev → Bool
  | [] => false
  | Ev.settle :: _ => false
  | Ev.cleanupCompleted d :: rest =>
    if d = dir then true else completedBeforeSettle dir rest
  | _ :: rest => completedBeforeSettle dir rest

/-- Whether any staged write occurs after a `cleanupInitiated` event. -/
def stagedWriteAfterCleanup : List Ev → Bool
  | [] => false
  | Ev.cleanupInitiated _ :: rest => rest.any Ev.isStagedWrite
  | _ :: rest => stagedWriteAfterCleanup rest

/-! ### Lemmas about the identifier extractor -/

theorem dropLit_of_append (l r : List Char) : dropLit l (l ++ r) = some r := by
  induction l with
  | nil => rfl
  | cons c cs ih => simp [dropLit, ih]

theorem dropLit_eq_some {l s r : List Char} (h : dropLit l s = some r) :
    s = l ++ r := by
  induction l generalizing s with
  | nil =>
    simp only [dropLit, Option.some_inj] at h
    simp [h]
  | cons c cs ih =>
    cases s with
    | nil => simp [dropLit] at h
    | cons d ds =>
      simp only [dropLit] at h
      split at h
      · next hd => simp [hd, ih h]
      · exact absurd h (by simp)

theorem takeHex_of_group {n : Nat} {g : List Char} (h : uuidGroupB n g = true)
    (r : List Char) : takeHex n (g ++ r) = some (g, r) := by
  induction g generalizing n with
  | nil =>
    simp only [uuidGroupB, List.length_nil, List.all_nil, Bool.and_true,
      decide_eq_true_eq] at h
    subst h
    rfl
  | cons c cs ih =>
    simp only [uuidGroupB, List.length_cons, List.all_cons, Bool.and_eq_true,
      decide_eq_true_eq] at h
    obtain ⟨hn, hc, hcs⟩ := h
    subst hn
    simp [takeHex, hc, ih (n := cs.length) (by simp [uuidGroupB, hcs])]

theorem takeHex_eq_some {n : Nat} {s g r : List Char}
    (h : takeHex n s = some (g, r)) : s = g ++ r ∧ uuidGroupB n g = true := by
  induction n generalizing s g with
  | zero =>
    simp only [takeHex, Option.some_inj, Prod.mk.injEq] at h
    obtain ⟨rfl, rfl⟩ := h
    simp [uuidGroupB]
  | succ m ih =>
    cases s with
    | nil => simp [takeHex] at h
    | cons c cs =>
      simp only [takeHex] at h
      split at h
      · next hc =>
        simp only [Option.map_eq_some'] at h
        obtain ⟨p, hp, hpe⟩ := h
        obtain ⟨rfl, rfl⟩ : c :: p.1 = g ∧ p.2 = r := by
          simpa [Prod.ext_iff] using hpe
        obtain ⟨hs, hg⟩ := ih hp
        simp only [uuidGroupB, Bool.and_eq_true, decide_eq_true_eq] at hg
        refine ⟨by simp [hs], ?_⟩
        simp [uuidGroupB, hg.1, hg.2, hc]
      · exact absurd h (by simp)

theorem expectDash_eq_some {s r : List Char} (h : expectDash s = some r) :
    s = '-' :: r := by
  cases s with
  | nil => simp [expectDash] at h
  | cons c cs =>
    simp only [expectDash] at h
    split at h
    · next hc => simp only [Option.some_inj] at h; simp [hc, h]
    · exact absurd h (by simp)

theorem matchMarkerHere_complete {u : List Char} (h : wellFormedUuid u)
    (rest : List Char) : matchMarkerHere (markerStr u ++ rest) = some u := by
  obtain ⟨g1, g2, g3, g4, g5, rfl, h1, h2, h3, h4, h5⟩ := h
  have hd : dropLit ("sentry-dbid-".toList)
      (markerStr (g1 ++ '-' :: g2 ++ '-' :: g3 ++ '-' :: g4 ++ '-' :: g5) ++ rest)
      = some ((g1 ++ '-' :: g2 ++ '-' :: g3 ++ '-' :: g4 ++ '-' :: g5) ++ rest) := by
    rw [markerStr, List.append_assoc]
    exact dropLit_of_append _ _
  simp only [matchMarkerHere, hd, Option.some_bind]
  simp [List.append_assoc, takeHex_of_group h1, takeHex_of_group h2,
    takeHex_of_group h3, takeHex_of_group h4, takeHex_of_group h5, expectDash]

theorem matchMarkerHere_eq_some {s u : List Char}
    (h : matchMarkerHere s = some u) :
    ∃ rest, s = markerStr u ++ rest ∧ wellFormedUuid u := by
  simp only [matchMarkerHere, Option.bind_eq_some, Option.map_eq_some'] at h
  obtain ⟨r0, hr0, p1, hp1, r1, hr1, p2, hp2, r2, hr2, p3, hp3, r3, hr3,
    p4, hp4, r4, hr4, p5, hp5, hu⟩ := h
  obtain ⟨e1, q1⟩ := takeHex_eq_some hp1
  obtain ⟨e2, q2⟩ := takeHex_eq_some hp2
  obtain ⟨e3, q3⟩ := takeHex_eq_some hp3
  obtain ⟨e4, q4⟩ := takeHex_eq_some hp4
  obtain ⟨e5, q5⟩ := takeHex_eq_some hp5
  have d1 := expectDash_eq_some hr1
  have d2 := expectDash_eq_some hr2
  have d3 := expectDash_eq_some hr3
  have d4 := expectDash_eq_some hr4
  refine ⟨p5.2, ?_, ?_⟩
  · rw [dropLit_eq_some hr0, e1, d1, e2, d2, e3, d3, e4, d4, e5, ← hu]
    simp [markerStr]
  · exact ⟨p1.1, p2.1, p3.1, p4.1, p5.1, hu.symm, q1, q2, q3, q4, q5⟩

theorem matchMarkerHere_nil : matchMarkerHere [] = none := rfl

theorem scan_eq_none {s : List Char}
    (h : ∀ j, matchMarkerHere (s.drop j) = none) :
    determineDebugIdFromBundleSource s = none := by
  induction s with
  | nil => rfl
  | cons c cs ih =>
    have h0 := h 0
    simp only [List.drop_zero] at h0
    unfold determineDebugIdFromBundleSource
    rw [h0]
    exact ih (fun j => by simpa using h (j + 1))

theorem scan_finds {s u : List Char} {i : Nat}
    (hi : matchMarkerHere (s.drop i) = some u)
    (huniq : ∀ j, j ≠ i → matchMarkerHere (s.drop j) = none) :
    determineDebugIdFromBundleSource s = some u := by
  induction s generalizing i with
  | nil => simp [matchMarkerHere_nil] at hi
  | cons c cs ih =>
    cases i with
    | zero =>
      simp only [List.drop_zero] at hi
      unfold determineDebugIdFromBundleSource
      rw [hi]
    | succ k =>
      have h0 := huniq 0 (by omega)
      simp only [List.drop_zero] at h0
      unfold determineDebugIdFromBundleSource
      rw [h0]
      exact ih (i := k) (by simpa using hi)
        (fun j hj => by simpa using huniq (j + 1) (by omega))

theorem scan_eq_some {s u : List Char}
    (h : determineDebugIdFromBundleSource s = some u) :
    ∃ i, matchMarkerHere (s.drop i) = some u := by
  induction s with
  | nil => simp [determineDebugIdFromBundleSource] at h
  | cons c cs ih =>
    unfold determineDebugIdFromBundleSource at h
    cases hm : matchMarkerHere (c :: cs) with
    | some v =>
      rw [hm] at h
      exact ⟨0, by simpa [hm] using h⟩
    | none =>
      rw [hm] at h
      obtain ⟨i, hi⟩ := ih h
      exact ⟨i + 1, by simpa using hi⟩

theorem wellFormedUuid_length {u : List Char} (h : wellFormedUuid u) :
    u.length = 36 := by
  obtain ⟨g1, g2, g3, g4, g5, rfl, h1, h2, h3, h4, h5⟩ := h
  simp only [uuidGroupB, Bool.and_eq_true, decide_eq_true_eq] at h1 h2 h3 h4 h5
  simp [h1.1, h2.1, h3.1, h4.1, h5.1]

theorem wellFormedUuid_mem {u : List Char} (h : wellFormedUuid u) :
    ∀ c ∈ u, isHexDigit c = true ∨ c = '-' := by
  obtain ⟨g1, g2, g3, g4, g5, rfl, h1, h2, h3, h4, h5⟩ := h
  simp only [uuidGroupB, Bool.and_eq_true, decide_eq_true_eq, List.all_eq_true] at h1 h2 h3 h4 h5
  intro c hc
  simp only [List.mem_append, List.mem_cons] at hc
  have hc' : c ∈ g1 ∨ c ∈ g2 ∨ c ∈ g3 ∨ c ∈ g4 ∨ c ∈ g5 ∨ c = '-' := by tauto
  rcases hc' with h' | h' | h' | h' | h' | h' <;>
    first
    | exact Or.inr h'
    | exact Or.inl (h1.2 c h')
    | exact Or.inl (h2.2 c h')
    | exact Or.inl (h3.2 c h')
    | exact Or.inl (h4.2 c h')
    | exact Or.inl (h5.2 c h')

/-- If the marker matcher succeeds at no position other than `n`, then every
decomposition of `s` exhibiting a well-formed marker occurrence must place it
at offset `n`.  (Bridges the regex-level and occurrence-level readings of
"exactly one well-formed marker".) -/
theorem occurrence_unique_of_matcher (s : List Char) (n : Nat)
    (hmatch : ∀ j < s.length, j ≠ n → matchMarkerHere (s.drop j) = none) :
    ∀ pre' u' post', s = pre' ++ markerStr u' ++ post' → wellFormedUuid u' →
      pre'.length = n := by
  intro pre' u' post' hdec hwf'
  have hm : matchMarkerHere (s.drop pre'.length) = some u' := by
    rw [hdec, List.append_assoc, List.drop_left]
    exact matchMarkerHere_complete hwf' post'
  by_contra hne
  have hlt : pre'.length < s.length := by
    have hml : 0 < (markerStr u').length := by simp [markerStr]
    rw [hdec]
    simp only [List.length_append]
    omega
  rw [hmatch pre'.length hlt hne] at hm
  exact absurd hm (by simp)

/-- C5: for every bundle text containing exactly one well-formed
`sentry-dbid-<uuid>` marker (uuid = 8-4-4-4-12 hex groups, case-insensitive),
`determineDebugIdFromBundleSource` returns that uuid verbatim (case
preserved); for every bundle text with zero or malformed markers it returns
`none` ("not found"), and the bundle preparer then produces no staged output
for that unit. -/
theorem debug_id_extraction_exact
    (s pre post u : List Char)
    (hs : s = pre ++ markerStr u ++ post)
    (hwf : wellFormedUuid u)
    (huniq : ∀ pre' u' post', s = pre' ++ markerStr u' ++ post' →
      wellFormedUuid u' → pre'.length = pre.length)
    (t : List Char)
    (hnone : ∀ j < t.length, matchMarkerHere (t.drop j) = none)
    (bundleFilePath uploadFolder : List Char) (chunkIndex : Nat)
    (hook : List Char → Doc → List Char) (env : BundleEnv)
    (hread : env.content = some t) :
    determineDebugIdFromBundleSource s = some u
    ∧ determineDebugIdFromBundleSource t = none
    ∧ ((prepareBundleForDebugIdUpload bundleFilePath uploadFolder chunkIndex
        hook env).events.all (fun e => !e.isStagedWrite)) = true := by
  have htnone : determineDebugIdFromBundleSource t = none := by
    apply scan_eq_none
    intro j
    by_cases hj : j < t.length
    · exact hnone j hj
    · rw [List.drop_eq_nil_of_le (by omega)]
      exact matchMarkerHere_nil
  refine ⟨?_, htnone, ?_⟩
  · have hi : matchMarkerHere (s.drop pre.length) = some u := by
      rw [hs, List.append_assoc, List.drop_left]
      exact matchMarkerHere_complete hwf post
    apply scan_finds hi
    intro j hj
    cases hm : matchMarkerHere (s.drop j) with
    | none => rfl
    | some u' =>
      obtain ⟨rest', hdec, hwf'⟩ := matchMarkerHere_eq_some hm
      have hjlt : j < s.length := by
        by_contra hge
        have : s.drop j = [] := List.drop_eq_nil_of_le (by omega)
        rw [this] at hm
        exact absurd hm (by simp [matchMarkerHere_nil])
      have hsdec : s = s.take j ++ markerStr u' ++ rest' := by
        conv_lhs => rw [← List.take_append_drop j s]
        rw [hdec, List.append_assoc]
      have hlen := huniq (s.take j) u' rest' hsdec hwf'
      rw [List.length_take] at hlen
      omega
  · simp only [prepareBundleForDebugIdUpload, hread, htnone]
    simp [Ev.isStagedWrite]

/-- Witness for C5 at a concrete bundle text with exactly one (mixed-case)
marker, and a concrete text whose only marker candidate is malformed. -/
theorem debug_id_extraction_exact_witness :
    determineDebugIdFromBundleSource
        ("x sentry-dbid-0aF9bc12-0000-4567-89ab-0123456789aB!".toList)
      = some ("0aF9bc12-0000-4567-89ab-0123456789aB".toList)
    ∧ determineDebugIdFromBundleSource ("stale sentry-dbid-xyz output".toList) = none
    ∧ ((prepareBundleForDebugIdUpload ("/dist/app.js".toList) ("/tmp/up".toList) 0
        (fun s _ => s)
        ⟨some ("stale sentry-dbid-xyz output".toList), true, false, none, true⟩).events.all
          (fun e => !e.isStagedWrite)) = true := by
  exact debug_id_extraction_exact
    ("x sentry-dbid-0aF9bc12-0000-4567-89ab-0123456789aB!".toList)
    ("x ".toList) ("!".toList)
    ("0aF9bc12-0000-4567-89ab-0123456789aB".toList)
    (by decide)
    ⟨"0aF9bc12".toList, "0000".toList, "4567".toList, "89ab".toList,
      "0123456789aB".toList, by decide, by decide, by decide, by decide,
      by decide, by decide⟩
    (occurrence_unique_of_matcher _ 2 (by decide))
    ("stale sentry-dbid-xyz output".toList)
    (by decide)
    ("/dist/app.js".toList) ("/tmp/up".toList) 0 (fun s _ => s)
    ⟨some ("stale sentry-dbid-xyz output".toList), true, false, none, true⟩
    rfl

/-! ### Lemmas about document key update -/

theorem lookupKey_setKey_self (m : Doc) (k : List Char) (v : Json) :
    lookupKey (setKey m k v) k = some v := by
  induction m with
  | nil => simp [setKey, lookupKey]
  | cons kv rest ih =>
    obtain ⟨k', w⟩ := kv
    by_cases hk : k' = k
    · simp [setKey, hk, lookupKey]
    · simp [setKey, hk, lookupKey, ih]

theorem lookupKey_setKey_ne (m : Doc) (k k2 : List Char) (v : Json)
    (h : k ≠ k2) : lookupKey (setKey m k v) k2 = lookupKey m k2 := by
  induction m with
  | nil => simp [setKey, lookupKey, h]
  | cons kv rest ih =>
    obtain ⟨k', w⟩ := kv
    by_cases hk : k' = k
    · subst hk
      simp [setKey, lookupKey, h]
    · by_cases hk2 : k' = k2
      · subst hk2
        simp [setKey, hk, lookupKey]
      · simp [setKey, hk, lookupKey, hk2, ih]

/-- C7: for every source-map document that parses successfully (and whose
write succeeds, so that a document is written at all), the document written
to the destination contains both `debug_id` and `debugId`, each equal to the
extracted identifier, whatever rewrite hook is configured. -/
theorem debug_id_fields_injected (sourceMapPath targetPath debugId : List Char)
    (hook : List Char → Doc → List Char) (d : Doc) :
    ∃ m, (prepareSourceMapForDebugIdUpload sourceMapPath targetPath debugId hook
        (some (some d)) true).written = some (targetPath, m)
      ∧ lookupKey m ("debug_id".toList) = some (.str debugId)
      ∧ lookupKey m ("debugId".toList) = some (.str debugId) := by
  refine ⟨setKey (setKey d ("debug_id".toList) (.str debugId)) ("debugId".toList)
    (.str debugId), rfl, ?_, ?_⟩
  · rw [lookupKey_setKey_ne _ _ _ _ (by decide)]
    exact lookupKey_setKey_self _ _ _
  · exact lookupKey_setKey_self _ _ _

/-- C1 (code bug): the source computes
`map["sources"].map((source) => rewriteSourcesHook(source, map))` but never
assigns the result back (line 290), so the written document keeps the
original `sources` entries.  At this input the claim's predicted entry is the
hook's output `cdn.example.com/app.js`, while the written entry is the
original `https://cdn.example.com/app.js`. -/
theorem sources_rewrite_discarded :
    (prepareSourceMapForDebugIdUpload ("/dist/app.js.map".toList)
        ("/tmp/up/a-0.js.map".toList)
        ("aaaaaaaa-bbbb-cccc-dddd-eeeeeeeeeeee".toList)
        (fun s _ => defaultRewriteSourcesHook ("/proj".toList) s)
        (some (some [(("sources".toList),
          Json.arr [Json.str ("https://cdn.example.com/app.js".toList)])]))
        true).written
      = some (("/tmp/up/a-0.js.map".toList),
          [(("sources".toList),
             Json.arr [Json.str ("https://cdn.example.com/app.js".toList)]),
           (("debug_id".toList),
             Json.str ("aaaaaaaa-bbbb-cccc-dddd-eeeeeeeeeeee".toList)),
           (("debugId".toList),
             Json.str ("aaaaaaaa-bbbb-cccc-dddd-eeeeeeeeeeee".toList))])
    ∧ defaultRewriteSourcesHook ("/proj".toList)
        ("https://cdn.example.com/app.js".toList)
        = "cdn.example.com/app.js".toList
    ∧ ("cdn.example.com/app.js".toList) ≠ ("https://cdn.example.com/app.js".toList) := by
  exact ⟨rfl, rfl, by decide⟩

/-- The sourceMappingURL regex (no `m` flag) can only match a string without
line terminators; the bundle text passed to the locator always contains the
appended `\n//# debugId=<id>` line, so the comment branch never fires for a
prepared bundle. -/
theorem sourceMappingUrlValue_stamped_none (content debugId : List Char) :
    sourceMappingUrlValue (stampedBundle content debugId) = none := by
  cases hv : sourceMappingUrlValue (stampedBundle content debugId) with
  | none => rfl
  | some r =>
    exfalso
    have hmem : '\n' ∈ stampedBundle content debugId := by
      simp [stampedBundle]
    unfold sourceMappingUrlValue at hv
    cases hd : dropLit ("//# sourceMappingURL=".toList)
        (stampedBundle content debugId) with
    | none =>
      rw [hd] at hv
      exact absurd hv (by simp)
    | some rest =>
      rw [hd] at hv
      dsimp only at hv
      by_cases hall : rest.all (fun c => c != '\n' && c != '\r') = true
      · rw [dropLit_eq_some hd] at hmem
        simp only [List.mem_append] at hmem
        rcases hmem with hl | hr
        · exact absurd hl (by decide)
        · have h2 := List.all_eq_true.mp hall _ hr
          simp at h2
      · rw [if_neg hall] at hv
        exact absurd hv (by simp)

/-- C2 (code bug): the regex `/^\/\/# sourceMappingURL=(.*)$/` has no `m`
flag, so a trailing `//# sourceMappingURL=<value>` comment on its own line in
a multi-line bundle never matches; the locator falls through to the
adjacent-`.map` probe (returning the sibling path, or nothing), instead of
resolving the comment's value `/maps/app.js.map` as the claim states. -/
theorem sourceMappingURL_comment_ignored :
    determineSourceMapPathFromBundle ("/dist/app.js".toList)
        ("x();\n//# sourceMappingURL=/maps/app.js.map".toList) true
      = some ("/dist/app.js.map".toList)
    ∧ determineSourceMapPathFromBundle ("/dist/app.js".toList)
        ("x();\n//# sourceMappingURL=/maps/app.js.map".toList) false
      = none := by
  exact ⟨rfl, rfl⟩

/-! ### Lemmas about the default rewrite hook -/

theorem takeWhile_append_stop (p : Char → Bool) (xs : List Char) (y : Char)
    (ys : List Char) (hx : ∀ c ∈ xs, p c = true) (hy : p y = false) :
    (xs ++ y :: ys).takeWhile p = xs ∧ (xs ++ y :: ys).dropWhile p = y :: ys := by
  induction xs with
  | nil => simp [List.takeWhile_cons, List.dropWhile_cons, hy]
  | cons c cs ih =>
    have hc := hx c (by simp)
    have ihh := ih (fun d hd => hx d (by simp [hd]))
    simp [List.takeWhile_cons, List.dropWhile_cons, hc, ihh.1, ihh.2]

theorem sepSplit_eq_some {l t : List Char} (h : sepSplit l = some t) :
    l = ':' :: '/' :: '/' :: t := by
  rcases l with _ | ⟨a, _ | ⟨b, _ | ⟨c, l'⟩⟩⟩
  · simp [sepSplit] at h
  · simp [sepSplit] at h
  · simp [sepSplit] at h
  · simp only [sepSplit] at h
    split at h
    · next habc =>
      obtain ⟨rfl, rfl, rfl⟩ := habc
      simp only [Option.some_inj] at h
      simp [h]
    · exact absurd h (by simp)

theorem protocolMatch_eq_some {s rest : List Char}
    (h : protocolMatch s = some rest) :
    ∃ c0 run, s = c0 :: (run ++ ':' :: '/' :: '/' :: rest) ∧ c0.isAlpha = true ∧
      ∀ c ∈ run, isSchemeChar c = true := by
  cases s with
  | nil => simp [protocolMatch] at h
  | cons c r =>
    simp only [protocolMatch] at h
    by_cases hc : c.isAlpha = true
    · rw [if_pos hc] at h
      have hsep := sepSplit_eq_some h
      refine ⟨c, r.takeWhile isSchemeChar, ?_, hc,
        fun d hd => List.mem_takeWhile_imp hd⟩
      conv_lhs => rw [show r = r.takeWhile isSchemeChar ++ r.dropWhile isSchemeChar
        from (List.takeWhile_append_dropWhile isSchemeChar r).symm]
      rw [hsep]
    · rw [if_neg hc] at h
      exact absurd h (by simp)

theorem protocolMatch_complete (c0 : Char) (run rest : List Char)
    (hc : c0.isAlpha = true) (hrun : ∀ c ∈ run, isSchemeChar c = true) :
    protocolMatch (c0 :: (run ++ ':' :: '/' :: '/' :: rest)) = some rest := by
  obtain ⟨-, hdw⟩ := takeWhile_append_stop isSchemeChar run ':' ('/' :: '/' :: rest)
    hrun (by decide)
  simp only [protocolMatch, hdw]
  rw [if_pos hc]
  simp [sepSplit]

/-- C8: the default rewrite hook strips exactly a leading `scheme://` prefix
(scheme = one ASCII letter followed by letters, digits, `+`, `-`, `.`) when
one is present — conjuncts 1 and 2 characterize the regex match in both
directions — and otherwise returns the normalized path expressed relative to
the process's working directory; with the spec's concrete examples. -/
theorem default_rewrite_hook_spec (cwd : List Char) :
    (∀ s rest, protocolMatch s = some rest →
      defaultRewriteSourcesHook cwd s = rest ∧
      ∃ c0 run, s = c0 :: (run ++ ':' :: '/' :: '/' :: rest) ∧ c0.isAlpha = true ∧
        ∀ c ∈ run, isSchemeChar c = true)
    ∧ (∀ c0 run rest, c0.isAlpha = true → (∀ c ∈ run, isSchemeChar c = true) →
        defaultRewriteSourcesHook cwd (c0 :: (run ++ ':' :: '/' :: '/' :: rest)) = rest)
    ∧ (∀ s, protocolMatch s = none →
        defaultRewriteSourcesHook cwd s = pathRelative cwd cwd (pathNormalize s))
    ∧ defaultRewriteSourcesHook ("/proj".toList)
        ("https://cdn.example.com/app.js".toList) = "cdn.example.com/app.js".toList
    ∧ defaultRewriteSourcesHook ("/proj".toList) ("/proj/src/app.js".toList)
        = "src/app.js".toList := by
  refine ⟨?_, ?_, ?_, by decide, by decide⟩
  · intro s rest h
    exact ⟨by simp [defaultRewriteSourcesHook, h], protocolMatch_eq_some h⟩
  · intro c0 run rest hc hrun
    simp [defaultRewriteSourcesHook, protocolMatch_complete c0 run rest hc hrun]
  · intro s h
    simp [defaultRewriteSourcesHook, h]

/-- Witness for C8: a concrete scheme-prefixed source and a concrete local
path with a `..` segment. -/
theorem default_rewrite_hook_spec_witness :
    defaultRewriteSourcesHook ("/proj".toList) ("ftp://host/x.js".toList)
      = "host/x.js".toList
    ∧ defaultRewriteSourcesHook ("/proj".toList) ("/proj/lib/../src/app.js".toList)
      = "src/app.js".toList := by
  have h := default_rewrite_hook_spec ("/proj".toList)
  refine ⟨(h.1 ("ftp://host/x.js".toList) ("host/x.js".toList) (by decide)).1, ?_⟩
  have h3 := h.2.2.1 ("/proj/lib/../src/app.js".toList) (by decide)
  rw [h3]
  decide

/-! ### Lemmas about `pathJoin` on a clean final segment -/

theorem splitSlash_ne_nil (p : List Char) : splitSlash p ≠ [] := by
  cases p with
  | nil => simp [splitSlash]
  | cons c cs =>
    by_cases h : c = '/'
    · simp [splitSlash, h]
    · simp only [splitSlash, if_neg h]
      cases hs : splitSlash cs with
      | nil => simp
      | cons a l => simp

theorem splitSlash_no_slash {s : List Char} (h : '/' ∉ s) :
    splitSlash s = [s] := by
  induction s with
  | nil => rfl
  | cons c cs ih =>
    have hc : c ≠ '/' := fun he => h (by simp [he])
    have ihh := ih (fun hm => h (by simp [hm]))
    simp [splitSlash, hc, ihh]

theorem splitSlash_append_seg (a seg : List Char) (h : '/' ∉ seg) :
    splitSlash (a ++ '/' :: seg) = splitSlash a ++ [seg] := by
  induction a with
  | nil => simp [splitSlash, splitSlash_no_slash h]
  | cons c cs ih =>
    by_cases hc : c = '/'
    · simp [splitSlash, hc, ih]
    · cases hs : splitSlash cs with
      | nil => exact absurd hs (splitSlash_ne_nil cs)
      | cons x l => simp [splitSlash, hc, ih, hs]

/-- A "plain" path segment: non-empty, without separators, and not a dot
segment. -/
def plainSeg (seg : List Char) : Prop :=
  seg ≠ [] ∧ '/' ∉ seg ∧ seg ≠ ['.'] ∧ seg ≠ ['.', '.']

theorem normStep_plain (b : Bool) (acc : List (List Char)) {seg : List Char}
    (h : plainSeg seg) : normStep b acc seg = acc ++ [seg] := by
  obtain ⟨h1, _, h3, h4⟩ := h
  simp [normStep, h1, h3, h4]

theorem normalizeSegs_append_plain (b : Bool) (xs : List (List Char))
    {seg : List Char} (h : plainSeg seg) :
    normalizeSegs b (xs ++ [seg]) = normalizeSegs b xs ++ [seg] := by
  simp [normalizeSegs, List.foldl_append, normStep_plain b _ h]

theorem joinSegs_append_one (S : List (List Char)) (x : List Char) :
    joinSegs (S ++ [x]) = joinSegs S ++ (if S = [] then [] else ['/']) ++ x := by
  induction S with
  | nil => simp [joinSegs]
  | cons s rest ih =>
    cases rest with
    | nil => simp [joinSegs]
    | cons t ts =>
      have ihh := ih
      simp only [List.cons_append] at ihh
      simp [joinSegs, ihh, List.append_assoc]

/-- The fixed prefix that `pathJoin a _` puts before a plain final segment. -/
def joinPrefix (a : List Char) : List Char :=
  (if pathIsAbsolute a then ['/'] else []) ++
    joinSegs (normalizeSegs (!pathIsAbsolute a) (splitSlash a)) ++
    (if normalizeSegs (!pathIsAbsolute a) (splitSlash a) = [] then [] else ['/'])

theorem pathIsAbsolute_append (a x : List Char) (h : a ≠ []) :
    pathIsAbsolute (a ++ x) = pathIsAbsolute a := by
  cases a with
  | nil => exact absurd rfl h
  | cons c cs => simp [pathIsAbsolute, List.cons_append]

theorem mem_of_getLast?_eq {l : List Char} {x : Char}
    (h : l.getLast? = some x) : x ∈ l := by
  obtain ⟨hne, hx⟩ := List.mem_getLast?_eq_getLast (l := l) (x := x)
    (by simpa [Option.mem_def] using h)
  exact hx ▸ List.getLast_mem hne

theorem pathJoin_plain (a : List Char) {seg : List Char} (ha : a ≠ [])
    (hs : plainSeg seg) : pathJoin a seg = joinPrefix a ++ seg := by
  obtain ⟨h1, h2, h3, h4⟩ := hs
  have hjoin : pathJoin a seg = pathNormalize (a ++ '/' :: seg) := by
    simp [pathJoin, ha, h1]
  rw [hjoin]
  have hne : a ++ '/' :: seg ≠ [] := by simp
  have habs : pathIsAbsolute (a ++ '/' :: seg) = pathIsAbsolute a :=
    pathIsAbsolute_append a _ ha
  have hlast : (a ++ '/' :: seg).getLast? = seg.getLast? := by
    rw [List.getLast?_append_of_ne_nil a (show ('/' :: seg : List Char) ≠ [] by simp)]
    cases seg with
    | nil => exact absurd rfl h1
    | cons d ds => exact List.getLast?_cons_cons
  have hnotrail : ¬((a ++ '/' :: seg).getLast? = some '/') := by
    rw [hlast]
    intro hsome
    exact h2 (mem_of_getLast?_eq hsome)
  have hsplit : splitSlash (a ++ '/' :: seg) = splitSlash a ++ [seg] :=
    splitSlash_append_seg a seg h2
  have hplain : plainSeg seg := ⟨h1, h2, h3, h4⟩
  have hcore : joinSegs (normalizeSegs (!pathIsAbsolute (a ++ '/' :: seg))
      (splitSlash (a ++ '/' :: seg)))
      = joinSegs (normalizeSegs (!pathIsAbsolute a) (splitSlash a)) ++
        ((if normalizeSegs (!pathIsAbsolute a) (splitSlash a) = [] then []
          else ['/']) ++ seg) := by
    rw [habs, hsplit, normalizeSegs_append_plain _ _ hplain, joinSegs_append_one]
    simp [List.append_assoc]
  have hcorene : joinSegs (normalizeSegs (!pathIsAbsolute (a ++ '/' :: seg))
      (splitSlash (a ++ '/' :: seg))) ≠ [] := by
    rw [hcore]
    simp [h1]
  simp only [pathNormalize, if_neg hne, hcore]
  rw [if_neg (by rw [← hcore]; exact hcorene)]
  rw [if_neg hnotrail, habs]
  by_cases habs' : pathIsAbsolute a = true
  · simp [joinPrefix, habs', List.append_assoc]
  · simp only [Bool.not_eq_true] at habs'
    simp [joinPrefix, habs', List.append_assoc]

/-! ### Plainness of the staged file name segment -/

theorem digitChar_isDigit (n : Nat) : (digitChar n).isDigit = true := by
  unfold digitChar
  repeat' split
  all_goals decide

theorem natCharsAux_all_digit (fuel n : Nat) :
    ∀ c ∈ natCharsAux fuel n, c.isDigit = true := by
  induction fuel generalizing n with
  | zero =>
    intro c hc
    simp [natCharsAux] at hc
  | succ f ih =>
    intro c hc
    simp only [natCharsAux] at hc
    split at hc
    · simp only [List.mem_singleton] at hc
      subst hc
      exact digitChar_isDigit n
    · simp only [List.mem_append, List.mem_singleton] at hc
      rcases hc with hc | hc
      · exact ih _ c hc
      · subst hc
        exact digitChar_isDigit _

theorem uuid_seg_plain {d : List Char} (hwf : wellFormedUuid d) (idx : Nat)
    {ext : List Char} (hext : '/' ∉ ext) :
    plainSeg ((d ++ '-' :: natChars idx) ++ ext) := by
  have hd36 := wellFormedUuid_length hwf
  have hdne : d ≠ [] := by
    intro h
    rw [h] at hd36
    simp at hd36
  refine ⟨by simp [hdne], ?_, ?_, ?_⟩
  · intro hmem'
    simp only [List.mem_append, List.mem_cons] at hmem'
    rcases hmem' with (hin | hda | hnc) | hex
    · rcases wellFormedUuid_mem hwf '/' hin with hh | hh
      · exact absurd hh (by decide)
      · exact absurd hh (by decide)
    · exact absurd hda (by decide)
    · have := natCharsAux_all_digit _ _ '/' hnc
      exact absurd this (by decide)
    · exact hext hex
  · intro h
    have hl := congrArg List.length h
    simp [hd36] at hl
    omega
  · intro h
    have hl := congrArg List.length h
    simp [hd36] at hl
    omega

/-- The transformer writes (when it writes at all) exactly to the target path
it was given. -/
theorem mapPrep_written_target (a t id : List Char)
    (hook : List Char → Doc → List Char) (ro : Option (Option Doc)) (w : Bool)
    {pm : List Char × Doc}
    (h : (prepareSourceMapForDebugIdUpload a t id hook ro w).written = some pm) :
    pm.1 = t := by
  cases ro with
  | none => simp [prepareSourceMapForDebugIdUpload] at h
  | some o =>
    cases o with
    | none => simp [prepareSourceMapForDebugIdUpload] at h
    | some m0 =>
      cases w with
      | false => simp [prepareSourceMapForDebugIdUpload] at h
      | true =>
        simp only [prepareSourceMapForDebugIdUpload, if_true] at h
        rw [Option.some_inj] at h
        rw [← h]

/-- C6: every file staged by a successfully prepared bundle has the name
`<uploadFolder>/<id>-<chunkIndex>.js` or that same name with `.map`
appended (so both share the basename `<id>-<chunkIndex>`); and two units
with the same identifier but chunk indices 0 and 1 are staged under distinct
names. -/
theorem staged_basenames
    (bundleFilePath uploadFolder : List Char) (chunkIndex : Nat)
    (hook : List Char → Doc → List Char) (env : BundleEnv) (c d : List Char)
    (hc : env.content = some c)
    (hd : determineDebugIdFromBundleSource c = some d)
    (hfolder : uploadFolder ≠ []) :
    (∀ p, Ev.stagedWrite p ∈ (prepareBundleForDebugIdUpload bundleFilePath
        uploadFolder chunkIndex hook env).events →
      p = pathJoin uploadFolder ((d ++ '-' :: natChars chunkIndex) ++ (".js".toList))
      ∨ p = pathJoin uploadFolder ((d ++ '-' :: natChars chunkIndex) ++ (".js".toList))
          ++ (".map".toList))
    ∧ pathJoin uploadFolder ((d ++ '-' :: natChars 0) ++ (".js".toList))
      ≠ pathJoin uploadFolder ((d ++ '-' :: natChars 1) ++ (".js".toList)) := by
  obtain ⟨i, hm⟩ := scan_eq_some hd
  obtain ⟨rest, -, hwf⟩ := matchMarkerHere_eq_some hm
  have hjs : plainSeg ((d ++ '-' :: natChars chunkIndex) ++ (".js".toList)) :=
    uuid_seg_plain hwf chunkIndex (by decide)
  have hjsmap : plainSeg ((d ++ '-' :: natChars chunkIndex) ++ (".js.map".toList)) :=
    uuid_seg_plain hwf chunkIndex (by decide)
  have hmapname : pathJoin uploadFolder
      ((d ++ '-' :: natChars chunkIndex) ++ (".js.map".toList))
      = pathJoin uploadFolder ((d ++ '-' :: natChars chunkIndex) ++ (".js".toList))
        ++ (".map".toList) := by
    rw [pathJoin_plain _ hfolder hjsmap, pathJoin_plain _ hfolder hjs]
    rw [show (".js.map".toList : List Char) = (".js".toList) ++ (".map".toList)
      from rfl]
    simp [List.append_assoc]
  constructor
  · intro p hp
    simp only [prepareBundleForDebugIdUpload, hc, hd] at hp
    simp only [List.mem_append] at hp
    rcases hp with hp | hp
    · left
      cases hbw : env.bundleWriteOk with
      | false =>
        rw [hbw] at hp
        simp at hp
      | true =>
        rw [hbw] at hp
        simp only [if_true, List.mem_singleton] at hp
        injection hp
    · cases hloc : determineSourceMapPathFromBundle bundleFilePath
          (stampedBundle c d) env.adjacentMapExists with
      | none =>
        rw [hloc] at hp
        simp at hp
      | some smp =>
        rw [hloc] at hp
        simp only [List.mem_append, List.mem_map] at hp
        rcases hp with ⟨l, -, hl⟩ | hp
        · exact absurd hl (by simp)
        · right
          cases hw : (prepareSourceMapForDebugIdUpload smp
              (pathJoin uploadFolder ((d ++ '-' :: natChars chunkIndex) ++
                (".js.map".toList))) d hook env.mapRead env.mapWriteOk).written with
          | none =>
            rw [hw] at hp
            simp at hp
          | some pm =>
            rw [hw] at hp
            simp only [List.mem_singleton] at hp
            have ht := mapPrep_written_target _ _ _ _ _ _ hw
            injection hp with hp'
            rw [hp', ht, hmapname]
  · rw [pathJoin_plain _ hfolder (uuid_seg_plain hwf 0 (by decide)),
      pathJoin_plain _ hfolder (uuid_seg_plain hwf 1 (by decide))]
    intro heq
    have h1 := List.append_cancel_left heq
    simp [List.append_assoc, natChars, natCharsAux, digitChar] at h1

/-- Witness for C6: two units sharing a concrete identifier with chunk
indices 0 and 1 get distinct staged names. -/
theorem staged_basenames_witness :
    pathJoin ("/tmp/up".toList)
        ((("aaaaaaaa-bbbb-cccc-dddd-eeeeeeeeeeee".toList) ++ '-' :: natChars 0)
          ++ (".js".toList))
      ≠ pathJoin ("/tmp/up".toList)
        ((("aaaaaaaa-bbbb-cccc-dddd-eeeeeeeeeeee".toList) ++ '-' :: natChars 1)
          ++ (".js".toList)) :=
  (staged_basenames ("/dist/app.js".toList) ("/tmp/up".toList) 0 (fun s _ => s)
    ⟨some ("q sentry-dbid-aaaaaaaa-bbbb-cccc-dddd-eeeeeeeeeeee".toList), true,
      true, some (some []), true⟩
    ("q sentry-dbid-aaaaaaaa-bbbb-cccc-dddd-eeeeeeeeeeee".toList)
    ("aaaaaaaa-bbbb-cccc-dddd-eeeeeeeeeeee".toList)
    rfl (by decide) (by decide)).2

/-! ### Event classification lemmas for the orchestrator trace -/

theorem prepare_events_unitEv (bundleFilePath uploadFolder : List Char)
    (chunkIndex : Nat) (hook : List Char → Doc → List Char) (env : BundleEnv) :
    ∀ e ∈ (prepareBundleForDebugIdUpload bundleFilePath uploadFolder chunkIndex
      hook env).events, e.isUnitEv = true := by
  intro e he
  simp only [prepareBundleForDebugIdUpload] at he
  cases hc : env.content with
  | none =>
    rw [hc] at he
    simp only [List.mem_singleton] at he
    subst he
    rfl
  | some c =>
    rw [hc] at he
    dsimp only at he
    cases hd : determineDebugIdFromBundleSource c with
    | none =>
      rw [hd] at he
      dsimp only at he
      simp only [List.mem_singleton] at he
      subst he
      rfl
    | some d =>
      rw [hd] at he
      dsimp only at he
      simp only [List.mem_append] at he
      rcases he with he | he
      · cases hb : env.bundleWriteOk with
        | false =>
          rw [hb] at he
          simp at he
        | true =>
          rw [hb] at he
          simp only [if_true, List.mem_singleton] at he
          subst he
          rfl
      · cases hloc : determineSourceMapPathFromBundle bundleFilePath
            (stampedBundle c d) env.adjacentMapExists with
        | none =>
          rw [hloc] at he
          simp only [List.mem_singleton] at he
          subst he
          rfl
        | some smp =>
          rw [hloc] at he
          simp only [List.mem_append, List.mem_map] at he
          rcases he with ⟨l, -, hl⟩ | he
          · subst hl
            rfl
          · cases hw : (prepareSourceMapForDebugIdUpload smp _ d hook env.mapRead
                env.mapWriteOk).written with
            | none =>
              rw [hw] at he
              simp at he
            | some pm =>
              rw [hw] at he
              simp only [List.mem_singleton] at he
              subst he
              rfl

theorem prepareAll_events_unitEv (tmpDir : List Char)
    (hook : List Char → Doc → List Char) (benv : List Char → BundleEnv)
    (candidates : List (List Char)) :
    ∀ e ∈ (((prepareAll tmpDir hook benv candidates).map PrepResult.events).flatten),
      e.isUnitEv = true := by
  intro e he
  simp only [List.mem_flatten, List.mem_map] at he
  obtain ⟨l, ⟨u, hu, rfl⟩, hel⟩ := he
  simp only [prepareAll, List.mem_map] at hu
  obtain ⟨p, hp, rfl⟩ := hu
  exact prepare_events_unitEv _ _ _ _ _ e hel

theorem deletionPhase_events (opts : UploadOptions) (env : OrchEnv) :
    ∀ e ∈ (deletionPhase opts env).1,
      (∃ p, e = Ev.log (.debugDeleteAsset p)) ∨ ∃ p b, e = Ev.rmFile p b := by
  intro e he
  simp only [deletionPhase] at he
  by_cases ht : truthyPattern opts.deleteFilesAfterUpload = true
  · rw [if_pos ht] at he
    cases hg : env.globDelete with
    | none =>
      rw [hg] at he
      simp at he
    | some files =>
      rw [hg] at he
      simp only [List.mem_append, List.mem_map] at he
      rcases he with ⟨p, -, rfl⟩ | ⟨p, -, rfl⟩
      · exact Or.inl ⟨p, rfl⟩
      · exact Or.inr ⟨p, _, rfl⟩
  · rw [if_neg ht] at he
    simp at he

theorem catchEvents_mem {e : Ev} {b : Bool} (he : e ∈ catchEvents b) :
    e = Ev.captureException ∨ e = Ev.handleRecoverableError := by
  cases b with
  | false => simp [catchEvents] at he
  | true =>
    simp only [catchEvents, if_true] at he
    simpa using he

/-- Everything emitted before the finally-block tail is a non-lifecycle
event. -/
theorem runBody_not_lifecycle (opts : UploadOptions) (artifacts : List (List Char))
    (hook : List Char → Doc → List Char) (env : OrchEnv) :
    ∀ e ∈ (runBody opts artifacts hook env).1, e.isLifecycle = false := by
  have hmain : ∀ e ∈ (mainWork opts artifacts hook env).1, e.isLifecycle = false := by
    intro e he
    simp only [mainWork] at he
    cases hg : env.globAssets with
    | none =>
      rw [hg] at he
      simp at he
    | some files =>
      rw [hg] at he
      dsimp only at he
      by_cases ha : opts.assets = some (.multi [])
      · rw [if_pos ha] at he
        simp only [List.mem_singleton] at he
        subst he
        rfl
      · rw [if_neg ha] at he
        by_cases hcf : candidateFiles files = []
        · rw [if_pos hcf] at he
          simp only [List.mem_singleton] at he
          subst he
          rfl
        · rw [if_neg hcf] at he
          have hunit := prepareAll_events_unitEv env.tmpDir hook env.bundleEnv
            (candidateFiles files)
          by_cases hall : (prepareAll env.tmpDir hook env.bundleEnv
              (candidateFiles files)).all PrepResult.fulfilled = true
          · rw [if_pos hall] at he
            cases hu : env.uploadOk with
            | false =>
              rw [hu] at he
              have := hunit e (by simpa using he)
              cases e <;> simp_all [Ev.isUnitEv, Ev.isLifecycle]
            | true =>
              rw [hu] at he
              simp only [if_true, List.mem_append, List.mem_singleton] at he
              rcases he with he | he
              · have := hunit e he
                cases e <;> simp_all [Ev.isUnitEv, Ev.isLifecycle]
              · subst he
                rfl
          · rw [if_neg hall] at he
            have := hunit e (by simpa using he)
            cases e <;> simp_all [Ev.isUnitEv, Ev.isLifecycle]
  intro e he
  simp only [runBody] at he
  by_cases hw : (mainWork opts artifacts hook env).2 = true
  · rw [if_pos hw] at he
    exact hmain e he
  · rw [if_neg hw] at he
    simp only [List.mem_append] at he
    rcases he with he | he
    · exact hmain e he
    · rcases deletionPhase_events opts env e he with ⟨p, rfl⟩ | ⟨p, b, rfl⟩ <;> rfl

theorem initiatedBeforeSettle_append (dir : List Char) (pre suf : List Ev)
    (h : ∀ e ∈ pre, e.isLifecycle = false) :
    initiatedBeforeSettle dir (pre ++ suf) = initiatedBeforeSettle dir suf := by
  induction pre with
  | nil => rfl
  | cons e es ih =>
    have he := h e (by simp)
    have hrec := ih (fun x hx => h x (by simp [hx]))
    cases e <;> simp_all [Ev.isLifecycle, initiatedBeforeSettle]

theorem completedBeforeSettle_append (dir : List Char) (pre suf : List Ev)
    (h : ∀ e ∈ pre, e.isLifecycle = false) :
    completedBeforeSettle dir (pre ++ suf) = completedBeforeSettle dir suf := by
  induction pre with
  | nil => rfl
  | cons e es ih =>
    have he := h e (by simp)
    have hrec := ih (fun x hx => h x (by simp [hx]))
    cases e <;> simp_all [Ev.isLifecycle, completedBeforeSettle]

theorem stagedWriteAfterCleanup_append (pre suf : List Ev)
    (h : ∀ e ∈ pre, e.isLifecycle = false) :
    stagedWriteAfterCleanup (pre ++ suf) = stagedWriteAfterCleanup suf := by
  induction pre with
  | nil => rfl
  | cons e es ih =>
    have he := h e (by simp)
    have hrec := ih (fun x hx => h x (by simp [hx]))
    cases e <;> simp_all [Ev.isLifecycle, stagedWriteAfterCleanup]

/-- C4 (amended): whenever the staging directory was created, its removal is
initiated before the returned operation settles, on every path (success,
partial failure, or exception inside the try block); but the removal is not
awaited, so it completes only after the operation settles — the directory may
still exist on disk at settle time.  On runs where every preparation unit's
promise fulfills (so the source's `await Promise.all` has settled every
dependent write before the `finally` block runs), no staged write occurs
after the removal is initiated; on a run where a unit rejects, the source
gives no such ordering guarantee, and none is claimed. -/
theorem cleanup_fire_and_forget (opts : UploadOptions)
    (artifacts : List (List Char)) (hook : List Char → Doc → List Char)
    (env : OrchEnv) (hm : env.mkdtempOk = true) :
    initiatedBeforeSettle env.tmpDir
      (createDebugIdUploadFunction opts artifacts hook env) = true
    ∧ completedBeforeSettle env.tmpDir
        (createDebugIdUploadFunction opts artifacts hook env) = false
    ∧ (∀ files, env.globAssets = some files →
        (prepareAll env.tmpDir hook env.bundleEnv (candidateFiles files)).all
          PrepResult.fulfilled = true →
        stagedWriteAfterCleanup
          (createDebugIdUploadFunction opts artifacts hook env) = false) := by
  have hpre : ∀ e ∈ Ev.mkdirTmp env.tmpDir ::
      (fallbackLog opts ++ (runBody opts artifacts hook env).1 ++
        catchEvents (runBody opts artifacts hook env).2), e.isLifecycle = false := by
    intro e he
    simp only [List.mem_cons, List.mem_append] at he
    rcases he with rfl | (he | he) | he
    · rfl
    · simp only [fallbackLog] at he
      split at he
      · simp at he
      · simp only [List.mem_singleton] at he
        subst he
        rfl
    · exact runBody_not_lifecycle _ _ _ _ e he
    · rcases catchEvents_mem he with rfl | rfl <;> rfl
  have hsplit : createDebugIdUploadFunction opts artifacts hook env
      = (Ev.mkdirTmp env.tmpDir ::
          (fallbackLog opts ++ (runBody opts artifacts hook env).1 ++
            catchEvents (runBody opts artifacts hook env).2))
        ++ [Ev.cleanupInitiated env.tmpDir, Ev.settle,
            Ev.cleanupCompleted env.tmpDir] := by
    simp [createDebugIdUploadFunction, hm, List.append_assoc]
  rw [hsplit]
  refine ⟨?_, ?_, ?_⟩
  · rw [initiatedBeforeSettle_append _ _ _ hpre]
    simp [initiatedBeforeSettle]
  · rw [completedBeforeSettle_append _ _ _ hpre]
    simp [completedBeforeSettle]
  · intro files hg hall
    rw [stagedWriteAfterCleanup_append _ _ hpre]
    simp [stagedWriteAfterCleanup, Ev.isStagedWrite]

/-- Inputs for a fully successful single-bundle run (used by the C4
counterexample and witness). -/
def okRunOpts : UploadOptions := ⟨some (.multi [("/dist/a.js".toList)]), none⟩

def okRunEnv : OrchEnv :=
  ⟨true, "/tmp/u".toList, some [("/dist/a.js".toList)],
    fun _ => ⟨some ("s sentry-dbid-aaaaaaaa-bbbb-cccc-dddd-eeeeeeeeeeee".toList),
      true, false, none, true⟩,
    true, none, fun _ => true⟩

/-- C4 counterexample: on a fully successful run in which the staging
directory was created (and the upload happened), the directory's removal has
still not completed when the returned operation settles — the `finally` block
fires the `rm` without awaiting it — so the claim "when the operation
settles the staging directory no longer exists on disk" is false. -/
theorem cleanup_counterexample :
    Ev.mkdirTmp ("/tmp/u".toList)
      ∈ createDebugIdUploadFunction okRunOpts [] (fun s _ => s) okRunEnv
    ∧ Ev.upload ("/tmp/u".toList)
        ∈ createDebugIdUploadFunction okRunOpts [] (fun s _ => s) okRunEnv
    ∧ completedBeforeSettle ("/tmp/u".toList)
        (createDebugIdUploadFunction okRunOpts [] (fun s _ => s) okRunEnv) = false := by
  exact ⟨by decide, by decide, by decide⟩

/-- Witness for C4 (amended) on the concrete successful run, discharging the
fulfilled-units hypotheses of the ordering conjunct as well. -/
theorem cleanup_fire_and_forget_witness :
    initiatedBeforeSettle ("/tmp/u".toList)
      (createDebugIdUploadFunction okRunOpts [] (fun s _ => s) okRunEnv) = true
    ∧ stagedWriteAfterCleanup
        (createDebugIdUploadFunction okRunOpts [] (fun s _ => s) okRunEnv) = false := by
  have h := cleanup_fire_and_forget okRunOpts [] (fun s _ => s) okRunEnv rfl
  exact ⟨h.1, h.2.2 [("/dist/a.js".toList)] rfl (by decide)⟩

/-- C3 (amended): within one unit, map-pipeline failures (locate, read,
parse, write) are caught and logged and never prevent the staged bundle-text
write (conjunct 1, over every map outcome) nor reject the unit (conjunct 3);
a bundle-text write failure does not prevent the map pipeline from writing
the staged map (conjunct 2, over either bundle-write outcome); but a
bundle-text write failure is not caught within the unit: it rejects the
unit's promise (conjunct 4) and thereby aborts the batch — the upload is
skipped and the error reaches the top-level recoverable-error handler
(conjunct 5). -/
theorem failure_isolation (bundleFilePath uploadFolder : List Char)
    (chunkIndex : Nat) (hook : List Char → Doc → List Char) :
    (∀ (env : BundleEnv) (c d : List Char), env.content = some c →
      determineDebugIdFromBundleSource c = some d → env.bundleWriteOk = true →
      Ev.stagedWrite (pathJoin uploadFolder
          ((d ++ '-' :: natChars chunkIndex) ++ (".js".toList)))
        ∈ (prepareBundleForDebugIdUpload bundleFilePath uploadFolder chunkIndex
            hook env).events)
    ∧ (∀ (env : BundleEnv) (c d smp : List Char) (m : Doc),
        env.content = some c → determineDebugIdFromBundleSource c = some d →
        determineSourceMapPathFromBundle bundleFilePath (stampedBundle c d)
          env.adjacentMapExists = some smp →
        env.mapRead = some (some m) → env.mapWriteOk = true →
        Ev.stagedWrite (pathJoin uploadFolder
            ((d ++ '-' :: natChars chunkIndex) ++ (".js.map".toList)))
          ∈ (prepareBundleForDebugIdUpload bundleFilePath uploadFolder chunkIndex
              hook env).events)
    ∧ (∀ (env : BundleEnv) (c : List Char), env.content = some c →
        env.bundleWriteOk = true →
        (prepareBundleForDebugIdUpload bundleFilePath uploadFolder chunkIndex
          hook env).fulfilled = true)
    ∧ (∀ (env : BundleEnv) (c d : List Char), env.content = some c →
        determineDebugIdFromBundleSource c = some d → env.bundleWriteOk = false →
        (prepareBundleForDebugIdUpload bundleFilePath uploadFolder chunkIndex
          hook env).fulfilled = false)
    ∧ (∀ (opts : UploadOptions) (artifacts : List (List Char)) (env : OrchEnv)
        (files : List (List Char)),
        env.mkdtempOk = true → env.globAssets = some files →
        (∃ r ∈ prepareAll env.tmpDir hook env.bundleEnv (candidateFiles files),
          r.fulfilled = false) →
        opts.assets ≠ some (.multi []) → candidateFiles files ≠ [] →
        (∀ d2, Ev.upload d2 ∉ createDebugIdUploadFunction opts artifacts hook env)
        ∧ Ev.handleRecoverableError
            ∈ createDebugIdUploadFunction opts artifacts hook env) := by
  refine ⟨?_, ?_, ?_, ?_, ?_⟩
  · intro env c d hc hd hb
    simp only [prepareBundleForDebugIdUpload, hc, hd, hb]
    simp
  · intro env c d smp m hc hd hloc hmr hw
    simp only [prepareBundleForDebugIdUpload, hc, hd, hloc, hmr, hw,
      prepareSourceMapForDebugIdUpload]
    simp
  · intro env c hc hb
    simp only [prepareBundleForDebugIdUpload, hc]
    cases hd : determineDebugIdFromBundleSource c <;> simp [hb]
  · intro env c d hc hd hb
    simp only [prepareBundleForDebugIdUpload, hc, hd]
    simp [hb]
  · intro opts artifacts env files hm hg hex hne hcf
    obtain ⟨r, hr, hrf⟩ := hex
    have hall : (prepareAll env.tmpDir hook env.bundleEnv
        (candidateFiles files)).all PrepResult.fulfilled = false := by
      cases hallc : (prepareAll env.tmpDir hook env.bundleEnv
          (candidateFiles files)).all PrepResult.fulfilled with
      | false => rfl
      | true =>
        have := List.all_eq_true.mp hallc r hr
        rw [hrf] at this
        exact absurd this (by simp)
    have hmw : mainWork opts artifacts hook env
        = (((prepareAll env.tmpDir hook env.bundleEnv
            (candidateFiles files)).map PrepResult.events).flatten, true) := by
      simp only [mainWork, hg]
      rw [if_neg hne, if_neg hcf, hall]
      simp
    have hrb : runBody opts artifacts hook env
        = (((prepareAll env.tmpDir hook env.bundleEnv
            (candidateFiles files)).map PrepResult.events).flatten, true) := by
      simp [runBody, hmw]
    have hfb : ∀ e ∈ fallbackLog opts, e = Ev.log LogEv.debugFallbackToArtifacts := by
      intro e he
      simp only [fallbackLog] at he
      split at he
      · simp at he
      · simpa using he
    have hsplit : createDebugIdUploadFunction opts artifacts hook env
        = Ev.mkdirTmp env.tmpDir ::
            (fallbackLog opts ++
              (((prepareAll env.tmpDir hook env.bundleEnv
                  (candidateFiles files)).map PrepResult.events).flatten ++
                ([Ev.captureException, Ev.handleRecoverableError] ++
                  [Ev.cleanupInitiated env.tmpDir, Ev.settle,
                    Ev.cleanupCompleted env.tmpDir]))) := by
      simp [createDebugIdUploadFunction, hm, hrb, catchEvents, List.append_assoc]
    constructor
    · intro d2 hmem
      rw [hsplit] at hmem
      simp only [List.mem_cons, List.mem_append] at hmem
      rcases hmem with h | h | h | h
      · exact absurd h (by simp)
      · exact absurd (hfb _ h) (by simp)
      · have := prepareAll_events_unitEv env.tmpDir hook env.bundleEnv
          (candidateFiles files) _ h
        simp [Ev.isUnitEv] at this
      · simp at h
    · rw [hsplit]
      simp

/-- Inputs of the C3 counterexample run: two candidate bundles; the first
unit's bundle-text write rejects, everything else succeeds. -/
def twoUnitOpts : UploadOptions :=
  ⟨some (.multi [("/dist/a.js".toList), ("/dist/b.js".toList)]), none⟩

def twoUnitEnv : OrchEnv :=
  ⟨true, "/tmp/u".toList, some [("/dist/a.js".toList), ("/dist/b.js".toList)],
    fun p =>
      if p = ("/dist/a.js".toList) then
        ⟨some ("a sentry-dbid-aaaaaaaa-aaaa-aaaa-aaaa-aaaaaaaaaaaa".toList),
          false, false, none, true⟩
      else
        ⟨some ("b sentry-dbid-bbbbbbbb-bbbb-bbbb-bbbb-bbbbbbbbbbbb".toList),
          true, false, none, true⟩,
    true, none, fun _ => true⟩

/-- C3 counterexample: a single unit's bundle-text write failure is not
merely logged — the batch's upload is skipped and the top-level
recoverable-error handler runs (so the failure aborts the batch), even
though the sibling unit's staged write still happened. -/
theorem unit_write_failure_aborts :
    Ev.upload ("/tmp/u".toList)
      ∉ createDebugIdUploadFunction twoUnitOpts [] (fun s _ => s) twoUnitEnv
    ∧ Ev.handleRecoverableError
        ∈ createDebugIdUploadFunction twoUnitOpts [] (fun s _ => s) twoUnitEnv
    ∧ Ev.stagedWrite ("/tmp/u/bbbbbbbb-bbbb-bbbb-bbbb-bbbbbbbbbbbb-1.js".toList)
        ∈ createDebugIdUploadFunction twoUnitOpts [] (fun s _ => s) twoUnitEnv := by
  exact ⟨by decide, by decide, by decide⟩

/-- Witness for C3 (amended): a unit whose bundle-text write fails still gets
its transformed source map staged (conjunct 2 of the theorem at a concrete
input). -/
theorem failure_isolation_witness :
    Ev.stagedWrite (pathJoin ("/tmp/u".toList)
        ((("aaaaaaaa-aaaa-aaaa-aaaa-aaaaaaaaaaaa".toList) ++ '-' :: natChars 0)
          ++ (".js.map".toList)))
      ∈ (prepareBundleForDebugIdUpload ("/dist/a.js".toList) ("/tmp/u".toList) 0
          (fun s _ => s)
          ⟨some ("a sentry-dbid-aaaaaaaa-aaaa-aaaa-aaaa-aaaaaaaaaaaa".toList),
            false, true, some (some []), true⟩).events :=
  (failure_isolation ("/dist/a.js".toList) ("/tmp/u".toList) 0 (fun s _ => s)).2.1
    ⟨some ("a sentry-dbid-aaaaaaaa-aaaa-aaaa-aaaa-aaaaaaaaaaaa".toList),
      false, true, some (some []), true⟩
    ("a sentry-dbid-aaaaaaaa-aaaa-aaaa-aaaa-aaaaaaaaaaaa".toList)
    ("aaaaaaaa-aaaa-aaaa-aaaa-aaaaaaaaaaaa".toList)
    ("/dist/a.js.map".toList) []
    rfl (by decide) (by decide) rfl rfl

/-- C9: with the include list explicitly set to `[]` (part 1), the batch
stages nothing and uploads nothing, and every log emitted is at debug level
(neither a warning nor an error); with a non-empty include resolving to an
empty candidate set (part 2), a warning is logged, nothing is staged or
uploaded, and no error is logged nor any recoverable error handled. -/
theorem empty_include_semantics (opts : UploadOptions)
    (artifacts : List (List Char)) (hook : List Char → Doc → List Char)
    (env : OrchEnv) (hm : env.mkdtempOk = true) :
    (opts.assets = some (.multi []) → env.globAssets = some [] →
      Ev.log .debugEmptyAssets ∈ createDebugIdUploadFunction opts artifacts hook env
      ∧ (∀ l, Ev.log l ∈ createDebugIdUploadFunction opts artifacts hook env →
          l.severity = .debug)
      ∧ (∀ p, Ev.stagedWrite p ∉ createDebugIdUploadFunction opts artifacts hook env)
      ∧ (∀ d2, Ev.upload d2 ∉ createDebugIdUploadFunction opts artifacts hook env))
    ∧ (∀ a files, opts.assets = some a → a ≠ .multi [] →
        env.globAssets = some files → candidateFiles files = [] →
        opts.deleteFilesAfterUpload = none →
        Ev.log .warnNoSources ∈ createDebugIdUploadFunction opts artifacts hook env
        ∧ (∀ l, Ev.log l ∈ createDebugIdUploadFunction opts artifacts hook env →
            l.severity ≠ .error)
        ∧ (∀ p, Ev.stagedWrite p ∉ createDebugIdUploadFunction opts artifacts hook env)
        ∧ (∀ d2, Ev.upload d2 ∉ createDebugIdUploadFunction opts artifacts hook env)
        ∧ Ev.handleRecoverableError
            ∉ createDebugIdUploadFunction opts artifacts hook env) := by
  constructor
  · intro ha hg
    have hmw : mainWork opts artifacts hook env = ([Ev.log .debugEmptyAssets], false) := by
      simp [mainWork, hg, ha]
    have hfb : fallbackLog opts = [] := by
      simp [fallbackLog, truthyPattern, ha]
    have hrb : runBody opts artifacts hook env
        = ([Ev.log .debugEmptyAssets] ++ (deletionPhase opts env).1,
           (deletionPhase opts env).2) := by
      simp [runBody, hmw]
    have hsplit : createDebugIdUploadFunction opts artifacts hook env
        = Ev.mkdirTmp env.tmpDir ::
            ([Ev.log .debugEmptyAssets] ++ ((deletionPhase opts env).1 ++
              (catchEvents (deletionPhase opts env).2 ++
                [Ev.cleanupInitiated env.tmpDir, Ev.settle,
                  Ev.cleanupCompleted env.tmpDir]))) := by
      simp [createDebugIdUploadFunction, hm, hrb, hfb, List.append_assoc]
    refine ⟨by rw [hsplit]; simp, ?_, ?_, ?_⟩
    · intro l hl
      rw [hsplit] at hl
      simp only [List.mem_cons, List.mem_append, List.mem_singleton, List.not_mem_nil, or_false] at hl
      rcases hl with h | h | h | h | h
      · exact absurd h (by simp)
      · injection h with h'
        subst h'
        rfl
      · rcases deletionPhase_events opts env _ h with ⟨p, hp⟩ | ⟨p, b, hp⟩
        · injection hp with h'
          subst h'
          rfl
        · exact absurd hp (by simp)
      · rcases catchEvents_mem h with h2 | h2 <;> exact absurd h2 (by simp)
      · rcases h with h | h | h <;> exact absurd h (by simp)
    · intro p hp
      rw [hsplit] at hp
      simp only [List.mem_cons, List.mem_append, List.mem_singleton, List.not_mem_nil, or_false] at hp
      rcases hp with h | h | h | h | h
      · exact absurd h (by simp)
      · exact absurd h (by simp)
      · rcases deletionPhase_events opts env _ h with ⟨q, hq⟩ | ⟨q, b, hq⟩ <;>
          exact absurd hq (by simp)
      · rcases catchEvents_mem h with h2 | h2 <;> exact absurd h2 (by simp)
      · rcases h with h | h | h <;> exact absurd h (by simp)
    · intro d2 hp
      rw [hsplit] at hp
      simp only [List.mem_cons, List.mem_append, List.mem_singleton, List.not_mem_nil, or_false] at hp
      rcases hp with h | h | h | h | h
      · exact absurd h (by simp)
      · exact absurd h (by simp)
      · rcases deletionPhase_events opts env _ h with ⟨q, hq⟩ | ⟨q, b, hq⟩ <;>
          exact absurd hq (by simp)
      · rcases catchEvents_mem h with h2 | h2 <;> exact absurd h2 (by simp)
      · rcases h with h | h | h <;> exact absurd h (by simp)
  · intro a files ha hane hg hcf hdel
    have hne : opts.assets ≠ some (.multi []) := by
      rw [ha]
      intro h
      exact hane (Option.some_inj.mp h)
    have hmw : mainWork opts artifacts hook env = ([Ev.log .warnNoSources], false) := by
      simp only [mainWork, hg]
      rw [if_neg hne, if_pos hcf]
    have hdelp : deletionPhase opts env = ([], false) := by
      simp [deletionPhase, hdel, truthyPattern]
    have hrb : runBody opts artifacts hook env = ([Ev.log .warnNoSources], false) := by
      simp [runBody, hmw, hdelp]
    have hfb : ∀ e ∈ fallbackLog opts, e = Ev.log LogEv.debugFallbackToArtifacts := by
      intro e he
      simp only [fallbackLog] at he
      split at he
      · simp at he
      · simpa using he
    have hsplit : createDebugIdUploadFunction opts artifacts hook env
        = Ev.mkdirTmp env.tmpDir ::
            (fallbackLog opts ++ ([Ev.log .warnNoSources] ++
              [Ev.cleanupInitiated env.tmpDir, Ev.settle,
                Ev.cleanupCompleted env.tmpDir])) := by
      simp [createDebugIdUploadFunction, hm, hrb, catchEvents, List.append_assoc]
    refine ⟨by rw [hsplit]; simp, ?_, ?_, ?_, ?_⟩
    · intro l hl
      rw [hsplit] at hl
      simp only [List.mem_cons, List.mem_append, List.mem_singleton, List.not_mem_nil, or_false] at hl
      rcases hl with h | h | h | h
      · exact absurd h (by simp)
      · have h2 := hfb _ h
        injection h2 with h'
        rw [h']
        simp [LogEv.severity]
      · injection h with h'
        subst h'
        simp [LogEv.severity]
      · rcases h with h | h | h <;> exact absurd h (by simp)
    · intro p hp
      rw [hsplit] at hp
      simp only [List.mem_cons, List.mem_append, List.mem_singleton, List.not_mem_nil, or_false] at hp
      rcases hp with h | h | h | h
      · exact absurd h (by simp)
      · exact absurd (hfb _ h) (by simp)
      · exact absurd h (by simp)
      · rcases h with h | h | h <;> exact absurd h (by simp)
    · intro d2 hp
      rw [hsplit] at hp
      simp only [List.mem_cons, List.mem_append, List.mem_singleton, List.not_mem_nil, or_false] at hp
      rcases hp with h | h | h | h
      · exact absurd h (by simp)
      · exact absurd (hfb _ h) (by simp)
      · exact absurd h (by simp)
      · rcases h with h | h | h <;> exact absurd h (by simp)
    · intro hp
      rw [hsplit] at hp
      simp only [List.mem_cons, List.mem_append, List.mem_singleton, List.not_mem_nil, or_false] at hp
      rcases hp with h | h | h | h
      · exact absurd h (by simp)
      · exact absurd (hfb _ h) (by simp)
      · exact absurd h (by simp)
      · rcases h with h | h | h <;> exact absurd h (by simp)

/-- Witness for C9 (part 1) at a concrete explicitly-empty include list. -/
theorem empty_include_semantics_witness :
    Ev.log LogEv.debugEmptyAssets ∈ createDebugIdUploadFunction
      ⟨some (.multi []), none⟩ [] (fun s _ => s)
      ⟨true, "/tmp/u".toList, some [], fun _ => ⟨none, true, false, none, true⟩,
        true, none, fun _ => true⟩ :=
  ((empty_include_semantics ⟨some (.multi []), none⟩ [] (fun s _ => s)
    ⟨true, "/tmp/u".toList, some [], fun _ => ⟨none, true, false, none, true⟩,
      true, none, fun _ => true⟩ rfl).1 rfl rfl).1

/-- C10: when a deletion pattern is configured (truthy), every file matched
by the deletion glob is removed on every run whose main work did not throw —
including runs in which the candidate set was empty and the uploader was
never invoked (second conjunct: with an explicitly empty include list the
trace contains no upload at all). -/
theorem delete_after_upload_unconditional (opts : UploadOptions)
    (artifacts : List (List Char)) (hook : List Char → Doc → List Char)
    (env : OrchEnv) (files : List (List Char))
    (hm : env.mkdtempOk = true)
    (hcfg : truthyPattern opts.deleteFilesAfterUpload = true)
    (hglob : env.globDelete = some files)
    (hwork : (mainWork opts artifacts hook env).2 = false)
    (hrm : ∀ p ∈ files, env.rmFileOk p = true) :
    (∀ p ∈ files, Ev.rmFile p true
      ∈ createDebugIdUploadFunction opts artifacts hook env)
    ∧ (opts.assets = some (.multi []) →
        ∀ d2, Ev.upload d2 ∉ createDebugIdUploadFunction opts artifacts hook env) := by
  have hdelp : (deletionPhase opts env).1
      = files.map (fun p => Ev.log (.debugDeleteAsset p)) ++
        files.map (fun p => Ev.rmFile p (env.rmFileOk p)) := by
    simp [deletionPhase, hcfg, hglob]
  have hrb1 : (runBody opts artifacts hook env).1
      = (mainWork opts artifacts hook env).1 ++ (deletionPhase opts env).1 := by
    simp [runBody, hwork]
  constructor
  · intro p hp
    have h1 : Ev.rmFile p true ∈ (deletionPhase opts env).1 := by
      rw [hdelp]
      simp only [List.mem_append, List.mem_map]
      right
      exact ⟨p, hp, by rw [hrm p hp]⟩
    have h2 : Ev.rmFile p true ∈ (runBody opts artifacts hook env).1 := by
      rw [hrb1]
      exact List.mem_append_right _ h1
    simp only [createDebugIdUploadFunction, hm, if_true, List.mem_cons,
      List.mem_append]
    tauto
  · intro ha d2 hmem
    obtain ⟨fs, hga⟩ : ∃ fs, env.globAssets = some fs := by
      cases hga : env.globAssets with
      | none =>
        have h0 : (mainWork opts artifacts hook env).2 = true := by
          simp [mainWork, hga]
        rw [hwork] at h0
        exact absurd h0 (by simp)
      | some fs => exact ⟨fs, rfl⟩
    have hmw : mainWork opts artifacts hook env
        = ([Ev.log .debugEmptyAssets], false) := by
      simp [mainWork, hga, ha]
    have hrb : runBody opts artifacts hook env
        = ([Ev.log .debugEmptyAssets] ++ (deletionPhase opts env).1,
           (deletionPhase opts env).2) := by
      simp [runBody, hmw]
    have hfb : ∀ e ∈ fallbackLog opts, e = Ev.log LogEv.debugFallbackToArtifacts := by
      intro e he
      simp only [fallbackLog] at he
      split at he
      · simp at he
      · simpa using he
    have hsplit : createDebugIdUploadFunction opts artifacts hook env
        = Ev.mkdirTmp env.tmpDir ::
            (fallbackLog opts ++ ([Ev.log .debugEmptyAssets] ++
              ((deletionPhase opts env).1 ++
                (catchEvents (deletionPhase opts env).2 ++
                  [Ev.cleanupInitiated env.tmpDir, Ev.settle,
                    Ev.cleanupCompleted env.tmpDir])))) := by
      simp [createDebugIdUploadFunction, hm, hrb, List.append_assoc]
    rw [hsplit] at hmem
    simp only [List.mem_cons, List.mem_append, List.mem_singleton, List.not_mem_nil, or_false] at hmem
    rcases hmem with h | h | h | h | h | h
    · exact absurd h (by simp)
    · exact absurd (hfb _ h) (by simp)
    · exact absurd h (by simp)
    · rcases deletionPhase_events opts env _ h with ⟨q, hq⟩ | ⟨q, b, hq⟩ <;>
        exact absurd hq (by simp)
    · rcases catchEvents_mem h with h2 | h2 <;> exact absurd h2 (by simp)
    · rcases h with h | h | h <;> exact absurd h (by simp)

/-- Inputs for the C10 witness run: explicitly empty include list, one
configured post-upload deletion target. -/
def deleteRunOpts : UploadOptions :=
  ⟨some (.multi []), some (.multi [("/dist/x.js.map".toList)])⟩

def deleteRunEnv : OrchEnv :=
  ⟨true, "/tmp/u".toList, some [], fun _ => ⟨none, true, false, none, true⟩,
    true, some [("/dist/x.js.map".toList)], fun _ => true⟩

/-- Witness for C10: the configured deletion happens even though the
candidate set was empty and no upload was performed. -/
theorem delete_after_upload_unconditional_witness :
    Ev.rmFile ("/dist/x.js.map".toList) true
      ∈ createDebugIdUploadFunction deleteRunOpts [] (fun s _ => s) deleteRunEnv
    ∧ Ev.upload ("/tmp/u".toList)
        ∉ createDebugIdUploadFunction deleteRunOpts [] (fun s _ => s) deleteRunEnv := by
  have h := delete_after_upload_unconditional deleteRunOpts [] (fun s _ => s)
    deleteRunEnv [("/dist/x.js.map".toList)] rfl (by decide) rfl (by decide)
    (by simp [deleteRunEnv])
  exact ⟨h.1 _ (by simp), h.2 rfl _⟩

end DebugIdUpload
